import Mathlib

/-
Verification of the external-merge-sort engine of the repository
(`sorter/external_merge_sort.py`, `sorter/auto_config.py`).

Shallow embedding conventions:
* A record is one 8-byte IEEE-754 double.  Record values are modelled by an
  arbitrary linearly ordered type `α` (Python's `<` on the doubles that occur
  in a file is a linear order; NaN is not modelled).  An input file is a pair
  `(recs, t)` where `recs : List α` is the sequence of complete 8-byte records
  and `t : Nat` is the number of trailing bytes after the last complete record
  (`t = file length mod 8` for a real file, but the model accepts any `t`).
* File reads are sequential, so an open run file is modelled by the list of
  its not-yet-read records; advancing the read position is dropping the head.
* `heapq` is a collection with push and pop-minimum; the heap is modelled as a
  list of `(value, source-index)` pairs with pop = removal of the
  lexicographically least pair, exactly Python's tuple comparison order.
* Recursion that Python drives by file exhaustion is defined through a fuel
  parameter (fuel = enough reads to exhaust the input), so that every
  definition is structural and computable by the kernel; fuel-adequacy lemmas
  recover the natural recursion equations.
-/

namespace EMS

/-- Error taxonomy of the engine.  `structError` is the error `struct.unpack`
raises on a buffer whose size does not match the format (the only error the
repository's own code can raise on malformed input).  `ioError` stands for an
operating-system I/O failure (e.g. a failing `out.write`).
`malformedInputError` is Modelled from the spec: the spec's §7 names a
`MalformedInputError` type, but no such class exists anywhere in the source. -/
inductive SortError where
  | structError
  | malformedInputError
  | ioError
  deriving DecidableEq

/-- Bytes in a megabyte, `MB = 1024 * 1024` from `auto_config.py`. -/
def MB : Nat := 1024 * 1024

/-- `choose_k` from `sorter/auto_config.py`: pick the merge fan-in from the
available RAM tier. -/
def choose_k (available_mem : Nat) : Nat :=
  if available_mem < 256 * MB then 8
  else if available_mem < 512 * MB then 16
  else if available_mem < 2 * 1024 * MB then 32
  else if available_mem < 8 * 1024 * MB then 64
  else 96

/-- `MIN_BLOCK = 4096` from `auto_config.py`. -/
def MIN_BLOCK : Nat := 4096

/-- `auto_tune_params` from `sorter/auto_config.py`, as a pure function of the
input file size in bytes and the memory budget `available_mem`
(`= int(psutil mem.available * ram_ratio)` in the source).  `N = file_size // 8`;
`max_block = available_mem // (8 * (k + 1))`;
`target_block = math.ceil(N / (k * k))`, modelled as exact ceiling division on
`Nat`; `block_size = max(min(max_block, target_block), MIN_BLOCK)`.
Returns `(block_size, k)`. -/
def auto_tune_params (file_size available_mem : Nat) : Nat × Nat :=
  let N := file_size / 8
  let k := choose_k available_mem
  let max_block := available_mem / (8 * (k + 1))
  let target_block := (N + k * k - 1) / (k * k)
  let block_size := max (min max_block target_block) MIN_BLOCK
  (block_size, k)

variable {α : Type} [LinearOrder α]

/-- Fuelled form of the grouping `runs[i : i + k]` performed by `merge_pass`:
split a list into consecutive groups of `k` elements (the final group may be
shorter).  Fuel bounds the number of groups; `l.length` is always enough. -/
def chunksOfF : Nat → Nat → List α → List (List α)
  | 0, _, _ => []
  | _ + 1, _, [] => []
  | f + 1, k, x :: xs => (x :: xs.take (k - 1)) :: chunksOfF f k (xs.drop (k - 1))

/-- `runs[i : i + k]` grouping: consecutive groups of at most `k` elements. -/
def chunksOf (k : Nat) (l : List α) : List (List α) := chunksOfF l.length k l

/-- Fuelled form of `generate_runs` (`external_merge_sort.py` lines 97-146)
acting on an input file `(recs, t)`.  Each loop iteration performs
`chunk = f.read(8 * block_size)`:
* `block_size = 0` reads zero bytes, so the falsy empty chunk ends the loop
  immediately and no run is written;
* with at least `block_size` records left, the chunk holds exactly
  `block_size` complete records, which are sorted (`nums.sort()`, modelled by
  `List.insertionSort`, extensionally the same ascending sort) and written as
  the next run;
* otherwise the read returns all remaining bytes: if the trailing byte count
  `t` is zero the remaining records (if any) form the final run, and an empty
  read ends the loop; if `t ≠ 0` the chunk length is not a multiple of 8 and
  `struct.unpack` raises (`structError`) after the runs written so far.
Returns the runs written to the work directory, in order, and the error if one
was raised. -/
def generate_runsF : Nat → Nat → List α → Nat → List (List α) × Option SortError
  | 0, _, _, _ => ([], none)
  | f + 1, bs, recs, t =>
    if bs = 0 then ([], none)
    else if bs ≤ recs.length then
      let rest := generate_runsF f bs (recs.drop bs) t
      (List.insertionSort (· ≤ ·) (recs.take bs) :: rest.1, rest.2)
    else if recs.length = 0 then
      ([], if t = 0 then none else some SortError.structError)
    else if t = 0 then ([List.insertionSort (· ≤ ·) recs], none)
    else ([], some SortError.structError)

/-- `generate_runs` on the input file `(recs, t)`; see `generate_runsF`. -/
def generate_runs (bs : Nat) (recs : List α) (t : Nat) :
    List (List α) × Option SortError :=
  generate_runsF (recs.length + 1) bs recs t

/-- Heap entries contributed by the sources `srcs`, with source indices
starting at `n`: one pair `(head, index)` per source that still has records.
`headsFrom 0` is exactly the multiset of entries the initial
`for i, f in enumerate(files): heappush(heap, (num, i))` loop pushes, and (by
the merge loop's re-push discipline) the heap contents at every iteration. -/
def headsFrom (n : Nat) : List (List α) → List (α × Nat)
  | [] => []
  | [] :: ss => headsFrom (n + 1) ss
  | (v :: _) :: ss => (v, n) :: headsFrom (n + 1) ss

/-- Heap entries of the sources, indices from 0. -/
def heads (srcs : List (List α)) : List (α × Nat) := headsFrom 0 srcs

/-- Strict lexicographic order on `(value, source index)` pairs: Python's `<`
on the tuples `heapq` compares. -/
def lexLt (p q : α × Nat) : Prop := p.1 < q.1 ∨ (p.1 = q.1 ∧ p.2 < q.2)

/-- Reflexive lexicographic order on `(value, source index)` pairs. -/
def lexLe (p q : α × Nat) : Prop := p.1 < q.1 ∨ (p.1 = q.1 ∧ p.2 ≤ q.2)

instance (p q : α × Nat) : Decidable (lexLt p q) :=
  inferInstanceAs (Decidable (_ ∨ _))

instance (p q : α × Nat) : Decidable (lexLe p q) :=
  inferInstanceAs (Decidable (_ ∨ _))

/-- Keep the lexicographically smaller of two heap entries. -/
def better (p q : α × Nat) : α × Nat := if lexLt q p then q else p

/-- The entry `heapq.heappop` returns: the lexicographically least pair of the
heap, or `none` when the heap is empty. -/
def minPair : List (α × Nat) → Option (α × Nat)
  | [] => none
  | p :: ps => some (ps.foldl better p)

/-- Advance source `i` past its current head record (the sequential read
`self._read_double(files[src_idx])` consumed it). -/
def popAt : List (List α) → Nat → List (List α)
  | [], _ => []
  | s :: ss, 0 => s.tail :: ss
  | s :: ss, i + 1 => s :: popAt ss i

/-- Total number of unread records across the sources. -/
def totalLen (srcs : List (List α)) : Nat := (srcs.map List.length).sum

/-- The heap entry (if any) that the merge loop pushes after advancing source
`j` whose unread remainder is `rest`: the next record of that source. -/
def optEntry (rest : List α) (j : Nat) : List (α × Nat) :=
  match rest with
  | [] => []
  | x :: _ => [(x, j)]

/-- Fuelled merge loop of `merge_k_runs` (`external_merge_sort.py` lines
149-247): while the heap is non-empty, pop the least `(value, src_idx)` pair,
append `value` to the output run, and read the next record of source
`src_idx` (pushing it if present — `popAt` plus the next `headsFrom` heads
realise exactly that push).  Fuel `totalLen srcs` always suffices. -/
def merge_k_runsF : Nat → List (List α) → List α
  | 0, _ => []
  | f + 1, srcs =>
    match minPair (heads srcs) with
    | none => []
    | some (v, i) => v :: merge_k_runsF f (popAt srcs i)

/-- `merge_k_runs`: the sequence of records the merge writes to the output
run. -/
def merge_k_runs (srcs : List (List α)) : List α :=
  merge_k_runsF (totalLen srcs) srcs

/-- `merge_pass` (`external_merge_sort.py` lines 250-261): group the current
runs into consecutive groups of at most `k` and merge each group. -/
def merge_pass (k : Nat) (runs : List (List α)) : List (List α) :=
  (chunksOf k runs).map merge_k_runs

/-- Fuelled form of the `while len(current) > 1` loop of `multi_pass_merge`
(`external_merge_sort.py` lines 264-276).  Fuel `runs.length` suffices when
`2 ≤ k`. -/
def multi_passF : Nat → Nat → List (List α) → List (List α)
  | 0, _, runs => runs
  | f + 1, k, runs =>
    if runs.length ≤ 1 then runs else multi_passF f k (merge_pass k runs)

/-- The run list left when `multi_pass_merge`'s loop exits. -/
def multi_pass_merge (k : Nat) (runs : List (List α)) : List (List α) :=
  multi_passF runs.length k runs

/-- Number of iterations of the `while len(current) > 1` loop (merge passes),
fuelled like `multi_passF`. -/
def pass_countF : Nat → Nat → List (List α) → Nat
  | 0, _, _ => 0
  | f + 1, k, runs =>
    if runs.length ≤ 1 then 0 else pass_countF f k (merge_pass k runs) + 1

/-- Number of merge passes `multi_pass_merge` performs. -/
def pass_count (k : Nat) (runs : List (List α)) : Nat :=
  pass_countF runs.length k runs

/-- The file content `sort` leaves at `output_file` on success:
`multi_pass_merge` returns `current[0] if current else None`; `None` yields an
empty output file, a surviving run is moved to `output_file`. -/
def sortOutput (bs k : Nat) (recs : List α) : List α :=
  match multi_pass_merge k (generate_runs bs recs 0).1 with
  | [] => []
  | r :: _ => r

/-- Attribute state of an `ExternalMergeSorter` object that is observable
after `sort` returns (or raises): whether the work directory still exists,
and `self.runs`, the list of initial-run files recorded by `generate_runs`,
modelled by their indices (`run_{i}.bin` ↦ `i`). -/
structure Engine where
  workDirExists : Bool
  runs : List Nat
  deriving DecidableEq

/-- `cleanup` (`external_merge_sort.py` lines 32-33): `shutil.rmtree` removes
the work directory and everything in it; no attribute is reset. -/
def cleanup (e : Engine) : Engine := { e with workDirExists := false }

/-- The `sort` pipeline (`external_merge_sort.py` lines 279-322) on the input
file `(recs, t)`: run generation, multi-pass merge, finalization; the
`finally:` clause runs `cleanup` on both the normal and the exceptional exit
path.  Returns the engine's attribute state after the call together with the
outcome: the content of `output_file` on success, or the propagated error. -/
def sort (bs k : Nat) (file : List α × Nat) : Engine × Except SortError (List α) :=
  let g := generate_runs bs file.1 file.2
  let e := cleanup { workDirExists := true, runs := List.range g.1.length }
  match g.2 with
  | some err => (e, Except.error err)
  | none =>
    (e, Except.ok (match multi_pass_merge k g.1 with
        | [] => []
        | r :: _ => r))

/-- The successive states of `output_file` during the finalization block of
`sort` (lines 297-303), `none` meaning that no file exists at that path:
* no surviving run (`final is None`): `open(output_file, "wb").close()`
  leaves one new state, an empty file;
* a surviving run and a pre-existing file at `output_file`:
  `os.remove(output_file)` first leaves the path missing, then
  `shutil.move(final, output_file)` installs the run;
* a surviving run and no pre-existing file: `shutil.move` installs the run. -/
def finalizeStates (prior : Option (List α)) (final : Option (List α)) :
    List (Option (List α)) :=
  match final with
  | none => [some []]
  | some r =>
    match prior with
    | some _ => [none, some r]
    | none => [some r]

/-- The successive states of `output_file` over a whole `sort` call, given its
prior content (`none` = no file there before the call).  If run generation
raises, the exception propagates before the finalization block, so the list is
empty: the destination is never touched. -/
def sortTrace (bs k : Nat) (prior : Option (List α)) (file : List α × Nat) :
    List (Option (List α)) :=
  let g := generate_runs bs file.1 file.2
  match g.2 with
  | some _ => []
  | none =>
    finalizeStates prior
      (match multi_pass_merge k g.1 with
       | [] => none
       | r :: _ => some r)

/-- The merge loop of `merge_k_runs` with an injected I/O failure environment:
`failAt = some j` makes the `out.write(struct.pack("d", value))` of the `j`-th
emission (0-based) raise `ioError`; `failAt = none` is the failure-free run.
Arguments: fuel, records emitted so far, sources. -/
def merge_loopH (failAt : Option Nat) :
    Nat → Nat → List (List α) → Except SortError (List α)
  | 0, _, _ => Except.ok []
  | f + 1, emitted, srcs =>
    match minPair (heads srcs) with
    | none => Except.ok []
    | some (v, i) =>
      if failAt = some emitted then Except.error SortError.ioError
      else (merge_loopH failAt f (emitted + 1) (popAt srcs i)).map (v :: ·)

/-- `merge_k_runs` with handle accounting: the source closes its input file
handles in the `for f in files: f.close()` loop placed after the
`with open(output_run, ...)` block, not in a `finally`; so the Boolean
(did the call close all input handles before returning) is `true` exactly
when the merge loop finished without raising. -/
def merge_k_runsH (failAt : Option Nat) (srcs : List (List α)) :
    Except SortError (List α) × Bool :=
  match merge_loopH failAt (totalLen srcs) 0 srcs with
  | Except.ok out => (Except.ok out, true)
  | Except.error e => (Except.error e, false)

/-- State of one `merge_k_runs` invocation: the heap contents, the unread
remainder of each input run file, and the records written to the output run
so far. -/
structure MState (α : Type) where
  heap : List (α × Nat)
  files : List (List α)
  out : List α

/-- State after the initial-fill loop of `merge_k_runs`: the first record of
every non-empty run has been read and pushed (so each file position is past
its first record), nothing emitted yet. -/
def initState (runs : List (List α)) : MState α :=
  { heap := heads runs, files := runs.map List.tail, out := [] }

/-- Unread remainder of source `i` (an exhausted or out-of-range source reads
as empty). -/
def getSrc (fs : List (List α)) (i : Nat) : List α := fs.getD i []

/-- Removal of one occurrence of a popped entry from the heap (the effect of
`heapq.heappop` on the remaining collection). -/
def removeEntry : List (α × Nat) → (α × Nat) → List (α × Nat)
  | [], _ => []
  | q :: qs, p => if q = p then qs else q :: removeEntry qs p

/-- One iteration of the merge loop of `merge_k_runs`: pop the least
`(value, src_idx)` pair, append the value to the output, read the next record
of that source and push it if present.  An empty heap means the loop has
exited and the state is final. -/
def mergeStep (st : MState α) : MState α :=
  match minPair st.heap with
  | none => st
  | some (v, i) =>
    let h1 := removeEntry st.heap (v, i)
    let h2 :=
      match (getSrc st.files i).head? with
      | none => h1
      | some x => (x, i) :: h1
    { heap := h2, files := popAt st.files i, out := st.out ++ [v] }

/-! ### Fuel adequacy and recursion equations -/

theorem chunksOfF_congr (k : Nat) :
    ∀ (f g : Nat) (l : List α), l.length ≤ f → l.length ≤ g →
      chunksOfF f k l = chunksOfF g k l := by
  intro f
  induction f with
  | zero =>
    intro g l hf _
    have hl : l = [] := by cases l <;> simp_all
    subst hl
    cases g <;> rfl
  | succ f IH =>
    intro g l hf hg
    cases l with
    | nil => cases g <;> rfl
    | cons x xs =>
      cases g with
      | zero => simp at hg
      | succ g =>
        simp only [chunksOfF]
        congr 1
        have hd : (xs.drop (k - 1)).length ≤ f := by
          simp only [List.length_drop]
          simp only [List.length_cons] at hf
          omega
        have hd' : (xs.drop (k - 1)).length ≤ g := by
          simp only [List.length_drop]
          simp only [List.length_cons] at hg
          omega
        exact IH g _ hd hd'

theorem chunksOf_cons (k : Nat) (x : α) (xs : List α) :
    chunksOf k (x :: xs) = (x :: xs.take (k - 1)) :: chunksOf k (xs.drop (k - 1)) := by
  unfold chunksOf
  simp only [List.length_cons, chunksOfF]
  congr 1
  exact chunksOfF_congr k xs.length (xs.drop (k - 1)).length _
    (by simp [List.length_drop]) le_rfl

theorem chunksOf_flatten_aux (k : Nat) :
    ∀ (N : Nat) (l : List α), l.length ≤ N → (chunksOf k l).flatten = l := by
  intro N
  induction N with
  | zero =>
    intro l h
    have hl : l = [] := by cases l <;> simp_all
    subst hl; rfl
  | succ N IH =>
    intro l h
    cases l with
    | nil => rfl
    | cons x xs =>
      rw [chunksOf_cons]
      simp only [List.flatten_cons]
      have hlen : (xs.drop (k - 1)).length ≤ N := by
        simp only [List.length_drop]
        simp only [List.length_cons] at h
        omega
      rw [IH (xs.drop (k - 1)) hlen]
      simp [List.cons_append, List.take_append_drop]

theorem chunksOf_flatten (k : Nat) (l : List α) : (chunksOf k l).flatten = l :=
  chunksOf_flatten_aux k l.length l le_rfl

theorem chunksOf_length_aux (k : Nat) (hk : 1 ≤ k) :
    ∀ (N : Nat) (l : List α), l.length ≤ N →
      (chunksOf k l).length = (l.length + k - 1) / k := by
  intro N
  induction N with
  | zero =>
    intro l h
    have hl : l = [] := by cases l <;> simp_all
    subst hl
    simp [chunksOf, chunksOfF, Nat.div_eq_of_lt (show k - 1 < k by omega)]
  | succ N IH =>
    intro l h
    cases l with
    | nil => simp [chunksOf, chunksOfF, Nat.div_eq_of_lt (show k - 1 < k by omega)]
    | cons x xs =>
      rw [chunksOf_cons]
      simp only [List.length_cons]
      have hlen : (xs.drop (k - 1)).length ≤ N := by
        simp only [List.length_drop]
        simp only [List.length_cons] at h
        omega
      rw [IH (xs.drop (k - 1)) hlen]
      simp only [List.length_drop]
      rcases Nat.lt_or_ge xs.length (k - 1) with hc | hc
      · have h1 : xs.length - (k - 1) = 0 := by omega
        rw [h1]
        have h2 : (0 + k - 1) / k = 0 := Nat.div_eq_of_lt (by omega)
        rw [h2]
        have h3 : (xs.length + 1 + k - 1) / k = 1 := by
          apply Nat.div_eq_of_lt_le <;> omega
        omega
      · have h1 : xs.length - (k - 1) + k - 1 = xs.length := by omega
        rw [h1]
        have h2 : xs.length + 1 + k - 1 = xs.length + k := by omega
        rw [h2, Nat.add_div_right _ (by omega : 0 < k)]

theorem chunksOf_length (k : Nat) (hk : 1 ≤ k) (l : List α) :
    (chunksOf k l).length = (l.length + k - 1) / k :=
  chunksOf_length_aux k hk l.length l le_rfl

theorem chunksOf_ne_nil (k : Nat) (x : α) (xs : List α) :
    chunksOf k (x :: xs) ≠ [] := by
  rw [chunksOf_cons]; exact List.cons_ne_nil _ _

theorem mem_chunksOf_aux (k : Nat) :
    ∀ (N : Nat) (l : List α), l.length ≤ N →
      ∀ c ∈ chunksOf k l, ∀ x ∈ c, x ∈ l := by
  intro N
  induction N with
  | zero =>
    intro l h
    have hl : l = [] := by cases l <;> simp_all
    subst hl; simp [chunksOf, chunksOfF]
  | succ N IH =>
    intro l h c hc x hx
    cases l with
    | nil => simp [chunksOf, chunksOfF] at hc
    | cons y ys =>
      rw [chunksOf_cons] at hc
      rcases List.mem_cons.1 hc with rfl | hc
      · rcases List.mem_cons.1 hx with rfl | hx
        · exact List.mem_cons_self _ _
        · exact List.mem_cons_of_mem _ (List.mem_of_mem_take hx)
      · have hlen : (ys.drop (k - 1)).length ≤ N := by
          simp only [List.length_drop]
          simp only [List.length_cons] at h
          omega
        have hy : x ∈ ys.drop (k - 1) := IH (ys.drop (k - 1)) hlen c hc x hx
        exact List.mem_cons_of_mem _ (List.mem_of_mem_drop hy)

theorem mem_chunksOf (k : Nat) (l : List α) :
    ∀ c ∈ chunksOf k l, ∀ x ∈ c, x ∈ l :=
  mem_chunksOf_aux k l.length l le_rfl

theorem generate_runsF_congr :
    ∀ (f g bs : Nat) (recs : List α) (t : Nat),
      recs.length < f → recs.length < g →
      generate_runsF f bs recs t = generate_runsF g bs recs t := by
  intro f
  induction f with
  | zero => intro g bs recs t hf; omega
  | succ f IH =>
    intro g bs recs t hf hg
    cases g with
    | zero => omega
    | succ g =>
      simp only [generate_runsF]
      split_ifs with h0 h1
      · rfl
      · have hd : (recs.drop bs).length < f := by
          simp only [List.length_drop]; omega
        have hd' : (recs.drop bs).length < g := by
          simp only [List.length_drop]; omega
        rw [IH g bs (recs.drop bs) t hd hd']
      all_goals rfl

theorem generate_runs_eq (bs : Nat) (recs : List α) (t : Nat) :
    generate_runs bs recs t =
      if bs = 0 then ([], none)
      else if bs ≤ recs.length then
        (List.insertionSort (· ≤ ·) (recs.take bs) ::
            (generate_runs bs (recs.drop bs) t).1,
          (generate_runs bs (recs.drop bs) t).2)
      else if recs.length = 0 then
        ([], if t = 0 then none else some SortError.structError)
      else if t = 0 then ([List.insertionSort (· ≤ ·) recs], none)
      else ([], some SortError.structError) := by
  unfold generate_runs
  conv_lhs => rw [generate_runsF]
  split_ifs with h0 h1
  · rfl
  · have hd : (recs.drop bs).length < recs.length := by
      simp only [List.length_drop]; omega
    rw [generate_runsF_congr recs.length ((recs.drop bs).length + 1) bs
      (recs.drop bs) t hd (Nat.lt_succ_self _)]
  all_goals rfl

/-! ### The lexicographic order of heap entries and `minPair` -/

theorem lexLt_le {p q : α × Nat} (h : lexLt p q) : lexLe p q := by
  rcases h with h | ⟨h1, h2⟩
  · exact Or.inl h
  · exact Or.inr ⟨h1, le_of_lt h2⟩

theorem lexLe_refl (p : α × Nat) : lexLe p p := Or.inr ⟨rfl, le_rfl⟩

theorem lexLe_of_not_lexLt {p q : α × Nat} (h : ¬ lexLt p q) : lexLe q p := by
  unfold lexLt at h
  push_neg at h
  obtain ⟨h1, h2⟩ := h
  rcases eq_or_lt_of_le h1 with heq | hlt
  · exact Or.inr ⟨heq, h2 heq.symm⟩
  · exact Or.inl hlt

theorem lexLe_trans {p q r : α × Nat} (h1 : lexLe p q) (h2 : lexLe q r) :
    lexLe p r := by
  rcases h1 with h1 | ⟨h1, h1'⟩ <;> rcases h2 with h2 | ⟨h2, h2'⟩
  · exact Or.inl (lt_trans h1 h2)
  · exact Or.inl (h2 ▸ h1)
  · exact Or.inl (h1 ▸ h2)
  · exact Or.inr ⟨h1.trans h2, le_trans h1' h2'⟩

theorem lexLe_antisymm {p q : α × Nat} (h1 : lexLe p q) (h2 : lexLe q p) :
    p = q := by
  obtain ⟨a, i⟩ := p
  obtain ⟨b, j⟩ := q
  rcases h1 with h1 | ⟨h1, h1'⟩ <;> rcases h2 with h2 | ⟨h2, h2'⟩ <;>
    simp_all
  · exact absurd (lt_trans h1 h2) (lt_irrefl a)
  · exact le_antisymm h1' h2'

theorem foldl_better_mem :
    ∀ (ps : List (α × Nat)) (a : α × Nat), ps.foldl better a ∈ a :: ps := by
  intro ps
  induction ps with
  | nil => intro a; simp
  | cons q ps IH =>
    intro a
    have h := IH (better a q)
    simp only [List.foldl_cons]
    rcases List.mem_cons.1 h with h1 | h1
    · rw [h1]
      unfold better
      split_ifs
      · exact List.mem_cons_of_mem _ (List.mem_cons_self _ _)
      · exact List.mem_cons_self _ _
    · exact List.mem_cons_of_mem _ (List.mem_cons_of_mem _ h1)

theorem foldl_better_le :
    ∀ (ps : List (α × Nat)) (a : α × Nat),
      lexLe (ps.foldl better a) a ∧ ∀ q ∈ ps, lexLe (ps.foldl better a) q := by
  intro ps
  induction ps with
  | nil => intro a; exact ⟨lexLe_refl a, by simp⟩
  | cons q ps IH =>
    intro a
    obtain ⟨h1, h2⟩ := IH (better a q)
    have hba : lexLe (better a q) a := by
      unfold better
      split_ifs with h
      · exact lexLt_le h
      · exact lexLe_refl a
    have hbq : lexLe (better a q) q := by
      unfold better
      split_ifs with h
      · exact lexLe_refl q
      · exact lexLe_of_not_lexLt h
    simp only [List.foldl_cons]
    refine ⟨lexLe_trans h1 hba, ?_⟩
    intro r hr
    rcases List.mem_cons.1 hr with rfl | hr
    · exact lexLe_trans h1 hbq
    · exact h2 r hr

theorem minPair_mem {l : List (α × Nat)} {p : α × Nat}
    (h : minPair l = some p) : p ∈ l := by
  cases l with
  | nil => simp [minPair] at h
  | cons a ps =>
    simp only [minPair, Option.some.injEq] at h
    rw [← h]
    exact foldl_better_mem ps a

theorem minPair_le {l : List (α × Nat)} {p : α × Nat}
    (h : minPair l = some p) : ∀ q ∈ l, lexLe p q := by
  cases l with
  | nil => simp [minPair] at h
  | cons a ps =>
    simp only [minPair, Option.some.injEq] at h
    intro q hq
    rcases List.mem_cons.1 hq with rfl | hq
    · exact h ▸ (foldl_better_le ps q).1
    · exact h ▸ (foldl_better_le ps a).2 q hq

theorem minPair_eq_none {l : List (α × Nat)} :
    minPair l = none ↔ l = [] := by
  cases l <;> simp [minPair]

theorem minPair_perm {l l' : List (α × Nat)} (h : l.Perm l') :
    minPair l = minPair l' := by
  rcases hl : minPair l with _ | p
  · have : l = [] := minPair_eq_none.1 hl
    subst this
    have : l' = [] := List.perm_nil.1 h.symm
    subst this; rfl
  · rcases hl' : minPair l' with _ | q
    · have : l' = [] := minPair_eq_none.1 hl'
      subst this
      have : l = [] := List.perm_nil.1 h
      subst this
      simp [minPair] at hl
    · have hp := minPair_mem hl
      have hq := minPair_mem hl'
      have h1 : lexLe p q := minPair_le hl q (h.symm.subset hq)
      have h2 : lexLe q p := minPair_le hl' p (h.subset hp)
      rw [lexLe_antisymm h1 h2]

/-! ### Sources, `popAt`, and heap-entry bookkeeping -/

theorem popAt_length : ∀ (l : List (List α)) (i : Nat),
    (popAt l i).length = l.length := by
  intro l
  induction l with
  | nil => intro i; rfl
  | cons s ss IH =>
    intro i
    cases i with
    | zero => rfl
    | succ i => simp [popAt, IH i]

theorem popAt_map_tail : ∀ (l : List (List α)) (i : Nat),
    popAt (l.map List.tail) i = (popAt l i).map List.tail := by
  intro l
  induction l with
  | nil => intro i; rfl
  | cons s ss IH =>
    intro i
    cases i with
    | zero => rfl
    | succ i => simp [popAt, IH i]

theorem getD_map_tail : ∀ (l : List (List α)) (i : Nat),
    (l.map List.tail).getD i [] = (l.getD i []).tail := by
  intro l
  induction l with
  | nil => intro i; simp
  | cons s ss IH =>
    intro i
    cases i with
    | zero => rfl
    | succ i =>
      show (List.map List.tail ss).getD i [] = (ss.getD i []).tail
      exact IH i

theorem popAt_getD_self : ∀ (l : List (List α)) (i : Nat),
    (popAt l i).getD i [] = (l.getD i []).tail := by
  intro l
  induction l with
  | nil => intro i; simp [popAt]
  | cons s ss IH =>
    intro i
    cases i with
    | zero => rfl
    | succ i =>
      show (popAt ss i).getD i [] = (ss.getD i []).tail
      exact IH i

theorem popAt_getD_ne : ∀ (l : List (List α)) (i j : Nat), j ≠ i →
    (popAt l i).getD j [] = l.getD j [] := by
  intro l
  induction l with
  | nil => intro i j _; rfl
  | cons s ss IH =>
    intro i j hne
    cases i with
    | zero =>
      cases j with
      | zero => exact absurd rfl hne
      | succ j => rfl
    | succ i =>
      cases j with
      | zero => rfl
      | succ j =>
        show (popAt ss i).getD j [] = ss.getD j []
        exact IH i j (by omega)

theorem popAt_flatten : ∀ (l : List (List α)) (i : Nat) (v : α) (rest : List α),
    l.getD i [] = v :: rest → (v :: (popAt l i).flatten).Perm l.flatten := by
  intro l
  induction l with
  | nil => intro i v rest h; simp at h
  | cons s ss IH =>
    intro i v rest h
    cases i with
    | zero =>
      have hs : s = v :: rest := h
      subst hs
      simp [popAt]
    | succ i =>
      have h' : ss.getD i [] = v :: rest := h
      have step : (v :: (s ++ (popAt ss i).flatten)).Perm
          (s ++ (v :: (popAt ss i).flatten)) := List.perm_middle.symm
      have tailp : (s ++ (v :: (popAt ss i).flatten)).Perm (s ++ ss.flatten) :=
        List.Perm.append_left s (IH i v rest h')
      simpa [popAt] using step.trans tailp

theorem totalLen_popAt : ∀ (l : List (List α)) (i : Nat) (v : α) (rest : List α),
    l.getD i [] = v :: rest → totalLen (popAt l i) + 1 = totalLen l := by
  intro l
  induction l with
  | nil => intro i v rest h; simp at h
  | cons s ss IH =>
    intro i v rest h
    cases i with
    | zero =>
      have hs : s = v :: rest := h
      subst hs
      simp [popAt, totalLen]
      omega
    | succ i =>
      have h' : ss.getD i [] = v :: rest := h
      have := IH i v rest h'
      simp [popAt, totalLen] at *
      omega

theorem mem_popAt : ∀ (l : List (List α)) (i : Nat) (r : List α),
    r ∈ popAt l i → r ∈ l ∨ r = (l.getD i []).tail := by
  intro l
  induction l with
  | nil => intro i r h; simp [popAt] at h
  | cons s ss IH =>
    intro i r h
    cases i with
    | zero =>
      rcases List.mem_cons.1 h with rfl | h
      · exact Or.inr rfl
      · exact Or.inl (List.mem_cons_of_mem _ h)
    | succ i =>
      rcases List.mem_cons.1 h with rfl | h
      · exact Or.inl (List.mem_cons_self _ _)
      · rcases IH i r h with h' | h'
        · exact Or.inl (List.mem_cons_of_mem _ h')
        · exact Or.inr h'

theorem headsFrom_mem : ∀ (l : List (List α)) (n : Nat) (v : α) (j : Nat),
    (v, j) ∈ headsFrom n l →
      ∃ i rest, j = n + i ∧ l.getD i [] = v :: rest := by
  intro l
  induction l with
  | nil => intro n v j h; simp [headsFrom] at h
  | cons s ss IH =>
    intro n v j h
    cases s with
    | nil =>
      obtain ⟨i, rest, hji, hget⟩ := IH (n + 1) v j h
      exact ⟨i + 1, rest, by omega, hget⟩
    | cons w ws =>
      rcases List.mem_cons.1 h with heq | h
      · have hv : v = w := congrArg Prod.fst heq
        have hj : j = n := congrArg Prod.snd heq
        subst hv
        subst hj
        exact ⟨0, ws, (Nat.add_zero j).symm, rfl⟩
      · obtain ⟨i, rest, hji, hget⟩ := IH (n + 1) v j h
        exact ⟨i + 1, rest, by omega, hget⟩

theorem totalLen_zero_heads : ∀ (l : List (List α)) (n : Nat),
    totalLen l = 0 → headsFrom n l = [] := by
  intro l
  induction l with
  | nil => intro n _; rfl
  | cons s ss IH =>
    intro n h
    simp only [totalLen, List.map_cons, List.sum_cons] at h
    have hs : s = [] := List.length_eq_zero.1 (by omega)
    have hss : totalLen ss = 0 := by simp only [totalLen]; omega
    subst hs
    exact IH (n + 1) hss

theorem heads_nil_flatten : ∀ (l : List (List α)) (n : Nat),
    headsFrom n l = [] → l.flatten = [] := by
  intro l
  induction l with
  | nil => intro n _; rfl
  | cons s ss IH =>
    intro n h
    cases s with
    | nil => simpa using IH (n + 1) h
    | cons w ws => simp [headsFrom] at h

theorem removeEntry_cons_head (p : α × Nat) (l : List (α × Nat)) :
    removeEntry (p :: l) p = l := by
  simp [removeEntry]

theorem removeEntry_cons_tail {q p : α × Nat} (l : List (α × Nat)) (h : q ≠ p) :
    removeEntry (q :: l) p = q :: removeEntry l p := by
  simp [removeEntry, h]

theorem removeEntry_perm {l l' : List (α × Nat)} (p : α × Nat)
    (h : l.Perm l') : (removeEntry l p).Perm (removeEntry l' p) := by
  induction h with
  | nil => exact List.Perm.refl _
  | cons x h IH =>
    by_cases hx : x = p
    · simpa [removeEntry, hx] using h
    · simpa [removeEntry, hx] using IH.cons x
  | swap x y l =>
    by_cases hy : y = p <;> by_cases hx : x = p
    · simp [removeEntry, hx, hy]
    · simp [removeEntry, hx, hy]
    · simp [removeEntry, hx, hy]
    · simp only [removeEntry, if_neg hx, if_neg hy]
      exact List.Perm.swap x y _
  | trans _ _ IH1 IH2 => exact IH1.trans IH2

theorem headsFrom_popAt :
    ∀ (l : List (List α)) (n i : Nat) (v : α) (rest : List α),
      l.getD i [] = v :: rest →
      (headsFrom n (popAt l i)).Perm
        (optEntry rest (n + i) ++ removeEntry (headsFrom n l) (v, n + i)) := by
  intro l
  induction l with
  | nil => intro n i v rest h; simp at h
  | cons s ss IH =>
    intro n i v rest h
    cases i with
    | zero =>
      have hs : s = v :: rest := h
      subst hs
      show (headsFrom n (rest :: ss)).Perm
        (optEntry rest (n + 0) ++
          removeEntry ((v, n) :: headsFrom (n + 1) ss) (v, n + 0))
      rw [Nat.add_zero, removeEntry_cons_head]
      cases rest with
      | nil => simp [headsFrom, optEntry]
      | cons x xs => simp [headsFrom, optEntry]
    | succ i =>
      have h' : ss.getD i [] = v :: rest := h
      have e1 : n + 1 + i = n + (i + 1) := by omega
      have IH' := IH (n + 1) i v rest h'
      rw [e1] at IH'
      cases s with
      | nil =>
        show (headsFrom (n + 1) (popAt ss i)).Perm
          (optEntry rest (n + (i + 1)) ++
            removeEntry (headsFrom (n + 1) ss) (v, n + (i + 1)))
        exact IH'
      | cons w ws =>
        have hne : ((w, n) : α × Nat) ≠ (v, n + (i + 1)) := by
          intro hEq
          have : n = n + (i + 1) := congrArg Prod.snd hEq
          omega
        show ((w, n) :: headsFrom (n + 1) (popAt ss i)).Perm
          (optEntry rest (n + (i + 1)) ++
            removeEntry ((w, n) :: headsFrom (n + 1) ss) (v, n + (i + 1)))
        rw [removeEntry_cons_tail _ hne]
        have step1 : ((w, n) :: headsFrom (n + 1) (popAt ss i)).Perm
            ((w, n) :: (optEntry rest (n + (i + 1)) ++
              removeEntry (headsFrom (n + 1) ss) (v, n + (i + 1)))) := IH'.cons _
        have step2 : ((w, n) :: (optEntry rest (n + (i + 1)) ++
            removeEntry (headsFrom (n + 1) ss) (v, n + (i + 1)))).Perm
            (optEntry rest (n + (i + 1)) ++ (w, n) ::
              removeEntry (headsFrom (n + 1) ss) (v, n + (i + 1))) := List.perm_middle.symm
        exact step1.trans step2

/-! ### Correctness of `merge_k_runs` -/

theorem getD_mem_or_default {β : Type} :
    ∀ (l : List β) (i : Nat) (d : β), l.getD i d ∈ l ∨ l.getD i d = d := by
  intro l
  induction l with
  | nil => intro i d; exact Or.inr (by simp)
  | cons x xs IH =>
    intro i d
    cases i with
    | zero => exact Or.inl (List.mem_cons_self _ _)
    | succ i =>
      rcases IH i d with h | h
      · exact Or.inl (List.mem_cons_of_mem _ h)
      · exact Or.inr h

theorem head_entry_mem :
    ∀ (l : List (List α)) (n : Nat) (s : List α), s ∈ l →
      ∀ (x : α) (xs : List α), s = x :: xs → ∃ j, (x, j) ∈ headsFrom n l := by
  intro l
  induction l with
  | nil => intro n s hs; simp at hs
  | cons s0 ss IH =>
    intro n s hs x xs hx
    rcases List.mem_cons.1 hs with rfl | hs
    · subst hx
      exact ⟨n, List.mem_cons_self _ _⟩
    · obtain ⟨j, hj⟩ := IH (n + 1) s hs x xs hx
      cases s0 with
      | nil => exact ⟨j, hj⟩
      | cons w ws => exact ⟨j, List.mem_cons_of_mem _ hj⟩

theorem lexLe_fst {p q : α × Nat} (h : lexLe p q) : p.1 ≤ q.1 := by
  rcases h with h | ⟨h, _⟩
  · exact le_of_lt h
  · exact le_of_eq h

theorem merge_k_runsF_congr :
    ∀ (f g : Nat) (srcs : List (List α)),
      totalLen srcs ≤ f → totalLen srcs ≤ g →
      merge_k_runsF f srcs = merge_k_runsF g srcs := by
  intro f
  induction f with
  | zero =>
    intro g srcs hf _
    have hh : heads srcs = [] := totalLen_zero_heads srcs 0 (by omega)
    cases g with
    | zero => rfl
    | succ g => simp [merge_k_runsF, hh, minPair]
  | succ f IH =>
    intro g srcs hf hg
    cases g with
    | zero =>
      have hh : heads srcs = [] := totalLen_zero_heads srcs 0 (by omega)
      simp [merge_k_runsF, hh, minPair]
    | succ g =>
      simp only [merge_k_runsF]
      cases hm : minPair (heads srcs) with
      | none => rfl
      | some p =>
        obtain ⟨v, i⟩ := p
        obtain ⟨i', rest, hi, hget⟩ := headsFrom_mem srcs 0 v i (minPair_mem hm)
        have hget2 : srcs.getD i [] = v :: rest := by
          have hii : i = i' := by omega
          rw [hii]; exact hget
        have ht := totalLen_popAt srcs i v rest hget2
        show v :: merge_k_runsF f (popAt srcs i) = v :: merge_k_runsF g (popAt srcs i)
        rw [IH g (popAt srcs i) (by omega) (by omega)]

theorem merge_k_runs_eq (srcs : List (List α)) :
    merge_k_runs srcs =
      match minPair (heads srcs) with
      | none => []
      | some (v, i) => v :: merge_k_runs (popAt srcs i) := by
  unfold merge_k_runs
  cases hm : minPair (heads srcs) with
  | none =>
    cases hN : totalLen srcs with
    | zero => rfl
    | succ N => simp [merge_k_runsF, hm]
  | some p =>
    obtain ⟨v, i⟩ := p
    obtain ⟨i', rest, hi, hget⟩ := headsFrom_mem srcs 0 v i (minPair_mem hm)
    have hget2 : srcs.getD i [] = v :: rest := by
      have hii : i = i' := by omega
      rw [hii]; exact hget
    have ht := totalLen_popAt srcs i v rest hget2
    rw [← ht]
    simp [merge_k_runsF, hm]

theorem merge_k_runs_perm_aux :
    ∀ (N : Nat) (srcs : List (List α)), totalLen srcs ≤ N →
      (merge_k_runs srcs).Perm srcs.flatten := by
  intro N
  induction N with
  | zero =>
    intro srcs h
    have hh : heads srcs = [] := totalLen_zero_heads srcs 0 (by omega)
    rw [merge_k_runs_eq, hh, heads_nil_flatten srcs 0 hh]
    simp [minPair]
  | succ N IH =>
    intro srcs h
    rw [merge_k_runs_eq]
    cases hm : minPair (heads srcs) with
    | none =>
      have hh : heads srcs = [] := minPair_eq_none.1 hm
      rw [heads_nil_flatten srcs 0 hh]
    | some p =>
      obtain ⟨v, i⟩ := p
      obtain ⟨i', rest, hi, hget⟩ := headsFrom_mem srcs 0 v i (minPair_mem hm)
      have hget2 : srcs.getD i [] = v :: rest := by
        have hii : i = i' := by omega
        rw [hii]; exact hget
      have ht := totalLen_popAt srcs i v rest hget2
      have hperm := IH (popAt srcs i) (by omega)
      exact (hperm.cons v).trans (popAt_flatten srcs i v rest hget2)

theorem merge_k_runs_perm (srcs : List (List α)) :
    (merge_k_runs srcs).Perm srcs.flatten :=
  merge_k_runs_perm_aux (totalLen srcs) srcs le_rfl

theorem getD_sorted {srcs : List (List α)}
    (hs : ∀ s ∈ srcs, List.Sorted (· ≤ ·) s) (i : Nat) :
    List.Sorted (· ≤ ·) (srcs.getD i []) := by
  rcases getD_mem_or_default srcs i [] with h | h
  · exact hs _ h
  · rw [h]; exact List.sorted_nil

theorem merge_k_runs_sorted_aux :
    ∀ (N : Nat) (srcs : List (List α)), totalLen srcs ≤ N →
      (∀ s ∈ srcs, List.Sorted (· ≤ ·) s) →
      List.Sorted (· ≤ ·) (merge_k_runs srcs) := by
  intro N
  induction N with
  | zero =>
    intro srcs h _
    have hh : heads srcs = [] := totalLen_zero_heads srcs 0 (by omega)
    rw [merge_k_runs_eq, hh]
    simp [minPair]
  | succ N IH =>
    intro srcs h hs
    rw [merge_k_runs_eq]
    cases hm : minPair (heads srcs) with
    | none => simp
    | some p =>
      obtain ⟨v, i⟩ := p
      obtain ⟨i', rest, hi, hget⟩ := headsFrom_mem srcs 0 v i (minPair_mem hm)
      have hget2 : srcs.getD i [] = v :: rest := by
        have hii : i = i' := by omega
        rw [hii]; exact hget
      have ht := totalLen_popAt srcs i v rest hget2
      have hgs : List.Sorted (· ≤ ·) (v :: rest) := hget2 ▸ getD_sorted hs i
      have hs' : ∀ s ∈ popAt srcs i, List.Sorted (· ≤ ·) s := by
        intro s hsm
        rcases mem_popAt srcs i s hsm with hmem | heq
        · exact hs s hmem
        · rw [heq, hget2]
          exact hgs.of_cons
      rw [List.sorted_cons]
      constructor
      · intro b hb
        have hbfl : b ∈ (popAt srcs i).flatten :=
          (merge_k_runs_perm (popAt srcs i)).subset hb
        obtain ⟨s, hsmem, hbs⟩ := List.mem_flatten.1 hbfl
        rcases mem_popAt srcs i s hsmem with hmem | heq
        · cases s with
          | nil => simp at hbs
          | cons x xs =>
            obtain ⟨j, hj⟩ := head_entry_mem srcs 0 (x :: xs) hmem x xs rfl
            have hvx : v ≤ x := lexLe_fst (minPair_le hm (x, j) hj)
            rcases List.mem_cons.1 hbs with rfl | hbs
            · exact hvx
            · exact le_trans hvx (List.rel_of_sorted_cons (hs _ hmem) b hbs)
        · rw [heq, hget2] at hbs
          exact List.rel_of_sorted_cons hgs b hbs
      · exact IH (popAt srcs i) (by omega) hs'

theorem merge_k_runs_sorted {srcs : List (List α)}
    (hs : ∀ s ∈ srcs, List.Sorted (· ≤ ·) s) :
    List.Sorted (· ≤ ·) (merge_k_runs srcs) :=
  merge_k_runs_sorted_aux (totalLen srcs) srcs le_rfl hs

/-! ### Merge passes and the pass scheduler -/

theorem flatten_map_flatten {β : Type} :
    ∀ (gs : List (List (List β))), (gs.map List.flatten).flatten = gs.flatten.flatten := by
  intro gs
  induction gs with
  | nil => rfl
  | cons g gs IH => simp [List.flatten_append, IH]

theorem merge_pass_flatten (k : Nat) (runs : List (List α)) :
    ((merge_pass k runs).flatten).Perm runs.flatten := by
  have haux : ∀ gs : List (List (List α)),
      ((gs.map merge_k_runs).flatten).Perm (gs.map List.flatten).flatten := by
    intro gs
    induction gs with
    | nil => exact List.Perm.refl []
    | cons g gs IH =>
      simp only [List.map_cons, List.flatten_cons]
      exact (merge_k_runs_perm g).append IH
  have h2 := haux (chunksOf k runs)
  rw [flatten_map_flatten, chunksOf_flatten] at h2
  exact h2

theorem merge_pass_sorted (k : Nat) (runs : List (List α))
    (hs : ∀ r ∈ runs, List.Sorted (· ≤ ·) r) :
    ∀ r ∈ merge_pass k runs, List.Sorted (· ≤ ·) r := by
  intro r hr
  obtain ⟨g, hg, rfl⟩ := List.mem_map.1 hr
  exact merge_k_runs_sorted (fun s hsm => hs s (mem_chunksOf k runs g hg s hsm))

theorem merge_pass_length (k : Nat) (hk : 1 ≤ k) (runs : List (List α)) :
    (merge_pass k runs).length = (runs.length + k - 1) / k := by
  simp [merge_pass, List.length_map, chunksOf_length k hk]

theorem merge_pass_lt (k : Nat) (hk : 2 ≤ k) (runs : List (List α))
    (h2 : 2 ≤ runs.length) : (merge_pass k runs).length < runs.length := by
  rw [merge_pass_length k (by omega) runs]
  have h1 : 2 * (k - 1) ≤ runs.length * (k - 1) := Nat.mul_le_mul_right _ h2
  have h3 : runs.length * k = runs.length * (k - 1) + runs.length := by
    have hk1 : k - 1 + 1 = k := by omega
    calc runs.length * k = runs.length * (k - 1 + 1) := by rw [hk1]
    _ = runs.length * (k - 1) + runs.length := by rw [Nat.mul_add, Nat.mul_one]
  rw [Nat.div_lt_iff_lt_mul (by omega : 0 < k)]
  omega

theorem merge_pass_ne_nil (k : Nat) (runs : List (List α)) (h : runs ≠ []) :
    merge_pass k runs ≠ [] := by
  cases runs with
  | nil => exact absurd rfl h
  | cons r rs =>
    unfold merge_pass
    rw [chunksOf_cons]
    simp

theorem multi_passF_congr (k : Nat) (hk : 2 ≤ k) :
    ∀ (f g : Nat) (runs : List (List α)), runs.length ≤ f → runs.length ≤ g →
      multi_passF f k runs = multi_passF g k runs := by
  intro f
  induction f with
  | zero =>
    intro g runs hf _
    have hr : runs = [] := by cases runs <;> simp_all
    subst hr
    cases g with
    | zero => rfl
    | succ g => simp [multi_passF]
  | succ f IH =>
    intro g runs hf hg
    cases g with
    | zero =>
      have hr : runs = [] := by cases runs <;> simp_all
      subst hr
      simp [multi_passF]
    | succ g =>
      simp only [multi_passF]
      by_cases h1 : runs.length ≤ 1
      · simp [h1]
      · simp only [if_neg h1]
        have hlt : (merge_pass k runs).length < runs.length :=
          merge_pass_lt k hk runs (by omega)
        exact IH g (merge_pass k runs) (by omega) (by omega)

theorem multi_pass_merge_eq (k : Nat) (hk : 2 ≤ k) (runs : List (List α)) :
    multi_pass_merge k runs =
      if runs.length ≤ 1 then runs
      else multi_pass_merge k (merge_pass k runs) := by
  unfold multi_pass_merge
  by_cases h1 : runs.length ≤ 1
  · rw [if_pos h1]
    cases runs with
    | nil => rfl
    | cons a l =>
      have hl : l = [] := by
        simp only [List.length_cons] at h1
        exact List.length_eq_zero.1 (by omega)
      subst hl
      simp [multi_passF]
  · rw [if_neg h1]
    have hL : runs.length = (runs.length - 1) + 1 := by omega
    conv_lhs => rw [hL]
    simp only [multi_passF, if_neg h1]
    have hlt : (merge_pass k runs).length < runs.length :=
      merge_pass_lt k hk runs (by omega)
    exact multi_passF_congr k hk (runs.length - 1) (merge_pass k runs).length
      (merge_pass k runs) (by omega) le_rfl

theorem pass_countF_congr (k : Nat) (hk : 2 ≤ k) :
    ∀ (f g : Nat) (runs : List (List α)), runs.length ≤ f → runs.length ≤ g →
      pass_countF f k runs = pass_countF g k runs := by
  intro f
  induction f with
  | zero =>
    intro g runs hf _
    have hr : runs = [] := by cases runs <;> simp_all
    subst hr
    cases g with
    | zero => rfl
    | succ g => simp [pass_countF]
  | succ f IH =>
    intro g runs hf hg
    cases g with
    | zero =>
      have hr : runs = [] := by cases runs <;> simp_all
      subst hr
      simp [pass_countF]
    | succ g =>
      simp only [pass_countF]
      by_cases h1 : runs.length ≤ 1
      · simp [h1]
      · simp only [if_neg h1]
        have hlt : (merge_pass k runs).length < runs.length :=
          merge_pass_lt k hk runs (by omega)
        rw [IH g (merge_pass k runs) (by omega) (by omega)]

theorem pass_count_eq (k : Nat) (hk : 2 ≤ k) (runs : List (List α)) :
    pass_count k runs =
      if runs.length ≤ 1 then 0
      else pass_count k (merge_pass k runs) + 1 := by
  unfold pass_count
  by_cases h1 : runs.length ≤ 1
  · rw [if_pos h1]
    cases runs with
    | nil => rfl
    | cons a l =>
      have hl : l = [] := by
        simp only [List.length_cons] at h1
        exact List.length_eq_zero.1 (by omega)
      subst hl
      simp [pass_countF]
  · rw [if_neg h1]
    have hL : runs.length = (runs.length - 1) + 1 := by omega
    conv_lhs => rw [hL]
    simp only [pass_countF, if_neg h1]
    have hlt : (merge_pass k runs).length < runs.length :=
      merge_pass_lt k hk runs (by omega)
    rw [pass_countF_congr k hk (runs.length - 1) (merge_pass k runs).length
      (merge_pass k runs) (by omega) le_rfl]

theorem multi_pass_merge_length (k : Nat) (hk : 2 ≤ k) :
    ∀ (N : Nat) (runs : List (List α)), runs.length ≤ N →
      (multi_pass_merge k runs).length = if runs.length = 0 then 0 else 1 := by
  intro N
  induction N with
  | zero =>
    intro runs h
    have hr : runs = [] := by cases runs <;> simp_all
    subst hr
    rfl
  | succ N IH =>
    intro runs h
    rw [multi_pass_merge_eq k hk]
    by_cases h1 : runs.length ≤ 1
    · rw [if_pos h1]
      cases runs with
      | nil => rfl
      | cons a l =>
        have hl : l = [] := by
          simp only [List.length_cons] at h1
          exact List.length_eq_zero.1 (by omega)
        subst hl
        rfl
    · rw [if_neg h1]
      have hlt := merge_pass_lt k hk runs (by omega)
      rw [IH (merge_pass k runs) (by omega)]
      have hne : merge_pass k runs ≠ [] :=
        merge_pass_ne_nil k runs (by
          intro hh
          rw [hh] at h1
          simp at h1)
      have hlen : (merge_pass k runs).length ≠ 0 := by
        simpa [List.length_eq_zero] using hne
      rw [if_neg hlen, if_neg (by omega)]

theorem multi_pass_merge_flatten (k : Nat) (hk : 2 ≤ k) :
    ∀ (N : Nat) (runs : List (List α)), runs.length ≤ N →
      ((multi_pass_merge k runs).flatten).Perm runs.flatten := by
  intro N
  induction N with
  | zero =>
    intro runs h
    have hr : runs = [] := by cases runs <;> simp_all
    subst hr
    exact List.Perm.refl _
  | succ N IH =>
    intro runs h
    rw [multi_pass_merge_eq k hk]
    by_cases h1 : runs.length ≤ 1
    · rw [if_pos h1]
    · rw [if_neg h1]
      have hlt := merge_pass_lt k hk runs (by omega)
      exact (IH (merge_pass k runs) (by omega)).trans (merge_pass_flatten k runs)

theorem multi_pass_merge_sorted (k : Nat) (hk : 2 ≤ k) :
    ∀ (N : Nat) (runs : List (List α)), runs.length ≤ N →
      (∀ r ∈ runs, List.Sorted (· ≤ ·) r) →
      ∀ r ∈ multi_pass_merge k runs, List.Sorted (· ≤ ·) r := by
  intro N
  induction N with
  | zero =>
    intro runs h hs
    have hr : runs = [] := by cases runs <;> simp_all
    subst hr
    simp [multi_pass_merge, multi_passF]
  | succ N IH =>
    intro runs h hs
    rw [multi_pass_merge_eq k hk]
    by_cases h1 : runs.length ≤ 1
    · rw [if_pos h1]; exact hs
    · rw [if_neg h1]
      have hlt := merge_pass_lt k hk runs (by omega)
      exact IH (merge_pass k runs) (by omega) (merge_pass_sorted k runs hs)

theorem pass_count_clog_aux (k : Nat) (hk : 2 ≤ k) :
    ∀ (N : Nat) (runs : List (List α)), runs.length ≤ N → 2 ≤ runs.length →
      pass_count k runs = Nat.clog k runs.length := by
  intro N
  induction N with
  | zero => intro runs h h2; omega
  | succ N IH =>
    intro runs h h2
    rw [pass_count_eq k hk, if_neg (by omega)]
    have hlen := merge_pass_length k (by omega) runs
    rw [Nat.clog_of_two_le (by omega) h2]
    by_cases hc : (merge_pass k runs).length ≤ 1
    · rw [pass_count_eq k hk, if_pos hc]
      have hz : Nat.clog k ((runs.length + k - 1) / k) = 0 :=
        Nat.clog_of_right_le_one (by rw [← hlen]; exact hc) k
      omega
    · have hlt := merge_pass_lt k hk runs h2
      rw [IH (merge_pass k runs) (by omega) (by omega), hlen]

/-! ### Run generation and the full pipeline -/

theorem generate_runs_props :
    ∀ (N bs : Nat) (recs : List α), recs.length ≤ N → 1 ≤ bs →
      (generate_runs bs recs 0).2 = none
      ∧ (((generate_runs bs recs 0).1).flatten).Perm recs
      ∧ (recs ≠ [] → (generate_runs bs recs 0).1 ≠ [])
      ∧ (∀ r ∈ (generate_runs bs recs 0).1, List.Sorted (· ≤ ·) r) := by
  intro N
  induction N with
  | zero =>
    intro bs recs h hbs
    have hr : recs = [] := by cases recs <;> simp_all
    subst hr
    rw [generate_runs_eq]
    simp only [if_neg (by omega : ¬ bs = 0), if_neg (by simp; omega : ¬ bs ≤ ([] : List α).length)]
    simp
  | succ N IH =>
    intro bs recs h hbs
    rw [generate_runs_eq, if_neg (by omega : ¬ bs = 0)]
    by_cases hble : bs ≤ recs.length
    · rw [if_pos hble]
      have hdlen : (recs.drop bs).length ≤ N := by
        simp only [List.length_drop]
        omega
      obtain ⟨ih1, ih2, _, ih4⟩ := IH bs (recs.drop bs) hdlen hbs
      refine ⟨ih1, ?_, fun _ => List.cons_ne_nil _ _, ?_⟩
      · simp only [List.flatten_cons]
        have hp : (List.insertionSort (· ≤ ·) (recs.take bs)).Perm (recs.take bs) :=
          List.perm_insertionSort _ _
        have := hp.append ih2
        exact this.trans (by rw [List.take_append_drop])
      · intro r hr
        rcases List.mem_cons.1 hr with rfl | hr
        · exact List.sorted_insertionSort _ _
        · exact ih4 r hr
    · rw [if_neg hble]
      by_cases hz : recs.length = 0
      · rw [if_pos hz]
        have hr : recs = [] := List.length_eq_zero.1 hz
        subst hr
        simp
      · rw [if_neg hz, if_pos rfl]
        refine ⟨rfl, ?_, fun _ => List.cons_ne_nil _ _, ?_⟩
        · simp only [List.flatten_cons, List.flatten_nil, List.append_nil]
          exact List.perm_insertionSort _ _
        · intro r hr
          rcases List.mem_cons.1 hr with rfl | hr
          · exact List.sorted_insertionSort _ _
          · simp at hr

theorem sortOutput_perm (bs k : Nat) (recs : List α) (hbs : 1 ≤ bs) (hk : 2 ≤ k) :
    (sortOutput bs k recs).Perm recs ∧
      List.Sorted (· ≤ ·) (sortOutput bs k recs) := by
  obtain ⟨h2none, hperm, hne, hsorted⟩ :=
    generate_runs_props recs.length bs recs le_rfl hbs
  unfold sortOutput
  cases hr : multi_pass_merge k (generate_runs bs recs 0).1 with
  | nil =>
    have hlen := multi_pass_merge_length k hk (generate_runs bs recs 0).1.length
      (generate_runs bs recs 0).1 le_rfl
    rw [hr] at hlen
    have hz : (generate_runs bs recs 0).1.length = 0 := by
      by_contra hzz
      rw [if_neg hzz] at hlen
      simp at hlen
    have hrz : (generate_runs bs recs 0).1 = [] := List.length_eq_zero.1 hz
    rw [hrz] at hperm
    have : recs = [] := List.perm_nil.1 hperm.symm
    subst this
    exact ⟨List.Perm.refl _, List.sorted_nil⟩
  | cons r rest =>
    have hlen := multi_pass_merge_length k hk (generate_runs bs recs 0).1.length
      (generate_runs bs recs 0).1 le_rfl
    rw [hr] at hlen
    have hrest : rest = [] := by
      by_cases hz : (generate_runs bs recs 0).1.length = 0
      · rw [if_pos hz] at hlen; simp at hlen
      · rw [if_neg hz] at hlen
        simp only [List.length_cons] at hlen
        exact List.length_eq_zero.1 (by omega)
    subst hrest
    have hfl := multi_pass_merge_flatten k hk (generate_runs bs recs 0).1.length
      (generate_runs bs recs 0).1 le_rfl
    rw [hr] at hfl
    simp only [List.flatten_cons, List.flatten_nil, List.append_nil] at hfl
    have hsort := multi_pass_merge_sorted k hk (generate_runs bs recs 0).1.length
      (generate_runs bs recs 0).1 le_rfl hsorted
    rw [hr] at hsort
    exact ⟨hfl.trans hperm, hsort r (List.mem_cons_self _ _)⟩

/-! ### Malformed input propagation -/

theorem generate_runs_err_aux :
    ∀ (N bs : Nat) (recs : List α) (t : Nat), recs.length ≤ N → 1 ≤ bs → t ≠ 0 →
      (generate_runs bs recs t).2 = some SortError.structError := by
  intro N
  induction N with
  | zero =>
    intro bs recs t h hbs ht
    have hr : recs = [] := by cases recs <;> simp_all
    subst hr
    rw [generate_runs_eq]
    rw [if_neg (by omega : ¬ bs = 0),
      if_neg (by simp; omega : ¬ bs ≤ ([] : List α).length)]
    simp [ht]
  | succ N IH =>
    intro bs recs t h hbs ht
    rw [generate_runs_eq, if_neg (by omega : ¬ bs = 0)]
    by_cases hble : bs ≤ recs.length
    · rw [if_pos hble]
      have hdlen : (recs.drop bs).length ≤ N := by
        simp only [List.length_drop]; omega
      exact IH bs (recs.drop bs) t hdlen hbs ht
    · rw [if_neg hble]
      by_cases hz : recs.length = 0
      · rw [if_pos hz, if_neg ht]
      · rw [if_neg hz, if_neg ht]

/-! ### Handle accounting of the merge loop -/

theorem totalLen_eq_flatten_length (l : List (List α)) :
    totalLen l = l.flatten.length := by
  simp [totalLen, List.length_flatten]

theorem minPair_heads_none_totalLen {srcs : List (List α)}
    (hm : minPair (heads srcs) = none) : totalLen srcs = 0 := by
  have hh : heads srcs = [] := minPair_eq_none.1 hm
  rw [totalLen_eq_flatten_length, heads_nil_flatten srcs 0 hh]
  rfl

theorem merge_loopH_none :
    ∀ (f cnt : Nat) (srcs : List (List α)),
      merge_loopH none f cnt srcs = Except.ok (merge_k_runsF f srcs) := by
  intro f
  induction f with
  | zero => intro cnt srcs; rfl
  | succ f IH =>
    intro cnt srcs
    simp only [merge_loopH, merge_k_runsF]
    cases hm : minPair (heads srcs) with
    | none => rfl
    | some p =>
      obtain ⟨v, i⟩ := p
      dsimp only
      rw [if_neg (by simp : ¬ (none : Option Nat) = some cnt)]
      rw [IH (cnt + 1) (popAt srcs i)]
      rfl

theorem merge_loopH_err :
    ∀ (f cnt j : Nat) (srcs : List (List α)), totalLen srcs ≤ f →
      cnt ≤ j → j < cnt + totalLen srcs →
      merge_loopH (some j) f cnt srcs = Except.error SortError.ioError := by
  intro f
  induction f with
  | zero => intro cnt j srcs hf h1 h2; omega
  | succ f IH =>
    intro cnt j srcs hf h1 h2
    simp only [merge_loopH]
    cases hm : minPair (heads srcs) with
    | none =>
      exfalso
      have := minPair_heads_none_totalLen hm
      omega
    | some p =>
      obtain ⟨v, i⟩ := p
      dsimp only
      by_cases hj : j = cnt
      · rw [if_pos (show (some j : Option Nat) = some cnt by rw [hj])]
      · rw [if_neg (show ¬ (some j : Option Nat) = some cnt by simp [hj])]
        obtain ⟨i', rest, hi, hget⟩ := headsFrom_mem srcs 0 v i (minPair_mem hm)
        have hget2 : srcs.getD i [] = v :: rest := by
          have hii : i = i' := by omega
          rw [hii]; exact hget
        have ht := totalLen_popAt srcs i v rest hget2
        rw [IH (cnt + 1) j (popAt srcs i) (by omega) (by omega) (by omega)]
        rfl

theorem merge_loopH_ok :
    ∀ (f cnt j : Nat) (srcs : List (List α)), totalLen srcs ≤ f →
      cnt + totalLen srcs ≤ j →
      merge_loopH (some j) f cnt srcs = Except.ok (merge_k_runsF f srcs) := by
  intro f
  induction f with
  | zero => intro cnt j srcs hf h1; rfl
  | succ f IH =>
    intro cnt j srcs hf h1
    simp only [merge_loopH, merge_k_runsF]
    cases hm : minPair (heads srcs) with
    | none => rfl
    | some p =>
      obtain ⟨v, i⟩ := p
      obtain ⟨i', rest, hi, hget⟩ := headsFrom_mem srcs 0 v i (minPair_mem hm)
      have hget2 : srcs.getD i [] = v :: rest := by
        have hii : i = i' := by omega
        rw [hii]; exact hget
      have ht := totalLen_popAt srcs i v rest hget2
      dsimp only
      rw [if_neg (show ¬ (some j : Option Nat) = some cnt by simp; omega)]
      rw [IH (cnt + 1) j (popAt srcs i) (by omega) (by omega)]
      rfl

/-! ### The heap invariant of the merge loop -/

theorem mergeStep_inv_step (runs pend : List (List α)) (st : MState α)
    (hfiles : st.files = pend.map List.tail)
    (hheap : st.heap.Perm (heads pend))
    (hlen : pend.length = runs.length)
    (hsuf : ∀ i : Nat, (pend.getD i []).IsSuffix (runs.getD i []))
    (hjoin : (st.out ++ pend.flatten).Perm runs.flatten)
    (hout : st.out ++ merge_k_runs pend = merge_k_runs runs) :
    ∃ pend' : List (List α),
      (mergeStep st).files = pend'.map List.tail
      ∧ ((mergeStep st).heap).Perm (heads pend')
      ∧ pend'.length = runs.length
      ∧ (∀ i : Nat, (pend'.getD i []).IsSuffix (runs.getD i []))
      ∧ ((mergeStep st).out ++ pend'.flatten).Perm runs.flatten
      ∧ (mergeStep st).out ++ merge_k_runs pend' = merge_k_runs runs := by
  cases hm : minPair st.heap with
  | none =>
    have hid : mergeStep st = st := by unfold mergeStep; rw [hm]
    rw [hid]
    exact ⟨pend, hfiles, hheap, hlen, hsuf, hjoin, hout⟩
  | some p =>
    obtain ⟨v, i⟩ := p
    have hmp : minPair (heads pend) = some (v, i) := by
      rw [← minPair_perm hheap]; exact hm
    obtain ⟨i', rest, hi, hget⟩ := headsFrom_mem pend 0 v i (minPair_mem hmp)
    have hget2 : pend.getD i [] = v :: rest := by
      have hii : i = i' := by omega
      rw [hii]; exact hget
    have hsrc : getSrc st.files i = rest := by
      unfold getSrc
      rw [hfiles, getD_map_tail, hget2]
      rfl
    have hstepEq : mergeStep st =
        { heap := (match rest.head? with
            | none => removeEntry st.heap (v, i)
            | some x => (x, i) :: removeEntry st.heap (v, i)),
          files := popAt st.files i, out := st.out ++ [v] } := by
      unfold mergeStep
      rw [hm]
      dsimp only
      rw [hsrc]
    refine ⟨popAt pend i, ?_, ?_, ?_, ?_, ?_, ?_⟩
    · rw [hstepEq]
      show popAt st.files i = (popAt pend i).map List.tail
      rw [hfiles, popAt_map_tail]
    · rw [hstepEq]
      have hhp := headsFrom_popAt pend 0 i v rest hget2
      rw [Nat.zero_add] at hhp
      have herase : (removeEntry st.heap (v, i)).Perm
          (removeEntry (heads pend) (v, i)) := removeEntry_perm _ hheap
      cases rest with
      | nil =>
        show (removeEntry st.heap (v, i)).Perm (heads (popAt pend i))
        simp only [optEntry, List.nil_append] at hhp
        exact herase.trans hhp.symm
      | cons x xs =>
        show ((x, i) :: removeEntry st.heap (v, i)).Perm (heads (popAt pend i))
        simp only [optEntry, List.singleton_append] at hhp
        exact ((herase.cons (x, i)).trans hhp.symm)
    · rw [popAt_length]; exact hlen
    · intro j
      by_cases hj : j = i
      · subst hj
        rw [popAt_getD_self]
        exact (List.tail_suffix _).trans (hsuf j)
      · rw [popAt_getD_ne pend i j hj]
        exact hsuf j
    · rw [hstepEq]
      show ((st.out ++ [v]) ++ (popAt pend i).flatten).Perm runs.flatten
      have hp1 : (v :: (popAt pend i).flatten).Perm pend.flatten :=
        popAt_flatten pend i v rest hget2
      have hre : (st.out ++ [v]) ++ (popAt pend i).flatten =
          st.out ++ (v :: (popAt pend i).flatten) := by
        simp [List.append_assoc]
      rw [hre]
      exact (List.Perm.append_left st.out hp1).trans hjoin
    · rw [hstepEq]
      show (st.out ++ [v]) ++ merge_k_runs (popAt pend i) = merge_k_runs runs
      have hmk : merge_k_runs pend = v :: merge_k_runs (popAt pend i) := by
        rw [merge_k_runs_eq, hmp]
      rw [List.append_assoc, List.singleton_append, ← hmk]
      exact hout

theorem mergeStep_invariant (runs : List (List α)) :
    ∀ n : Nat, ∃ pend : List (List α),
      (mergeStep^[n] (initState runs)).files = pend.map List.tail
      ∧ ((mergeStep^[n] (initState runs)).heap).Perm (heads pend)
      ∧ pend.length = runs.length
      ∧ (∀ i : Nat, (pend.getD i []).IsSuffix (runs.getD i []))
      ∧ ((mergeStep^[n] (initState runs)).out ++ pend.flatten).Perm runs.flatten
      ∧ (mergeStep^[n] (initState runs)).out ++ merge_k_runs pend =
          merge_k_runs runs := by
  intro n
  induction n with
  | zero =>
    exact ⟨runs, rfl, List.Perm.refl _, rfl, fun i => List.suffix_refl _,
      List.Perm.refl _, rfl⟩
  | succ n IH =>
    obtain ⟨pend, h1, h2, h3, h4, h5, h6⟩ := IH
    rw [Function.iterate_succ_apply']
    exact mergeStep_inv_step runs pend _ h1 h2 h3 h4 h5 h6

/-! ### Claim theorems -/

/-- C1: for every input file whose length is a multiple of 8 bytes (record
list `recs`, zero trailing bytes) and any valid parameters (block size at
least one record, fan-in at least 2), `sort` succeeds and the sequence of
records it leaves at the output path is a permutation of the input's records
arranged in non-decreasing order. -/
theorem sort_sorted_permutation (bs k : Nat) (recs : List α)
    (hbs : 1 ≤ bs) (hk : 2 ≤ k) :
    (sort bs k (recs, 0)).2 = Except.ok (sortOutput bs k recs)
    ∧ (sortOutput bs k recs).Perm recs
    ∧ List.Sorted (· ≤ ·) (sortOutput bs k recs) := by
  obtain ⟨hperm, hsort⟩ := sortOutput_perm bs k recs hbs hk
  refine ⟨?_, hperm, hsort⟩
  have h2 := (generate_runs_props recs.length bs recs le_rfl hbs).1
  simp only [sort, sortOutput, h2]

/-- Witness for C1 at the spec's concrete scenario: records
`[5, 3, 1, 4, 2]`, `runSizeRecords = 2`, `fanIn = 2`. -/
theorem sort_sorted_permutation_witness :
    1 ≤ 2 ∧ 2 ≤ 2 ∧
      ((sort 2 2 (([5, 3, 1, 4, 2] : List Int), 0)).2 =
          Except.ok (sortOutput 2 2 [5, 3, 1, 4, 2])
        ∧ (sortOutput 2 2 ([5, 3, 1, 4, 2] : List Int)).Perm [5, 3, 1, 4, 2]
        ∧ List.Sorted (· ≤ ·) (sortOutput 2 2 ([5, 3, 1, 4, 2] : List Int))) :=
  ⟨by decide, by decide,
    sort_sorted_permutation 2 2 [5, 3, 1, 4, 2] (by decide) (by decide)⟩

/-- C2 (counterexample): with memory budget `M = 0` (and an 800-byte file) the
tuner floors the block size to `MIN_BLOCK = 4096` records, so
`runSizeRecords * (fanIn + 1) * 8 = 294912 > 0 = M`: the claim's bound fails
for small budgets. -/
theorem auto_tune_budget_cex :
    ¬ ((auto_tune_params 800 0).1 * ((auto_tune_params 800 0).2 + 1) * 8 ≤ 0) := by
  decide

/-- C2 (amended): whenever the memory budget admits the `MIN_BLOCK`-record
floor — `MIN_BLOCK * 8 * (choose_k M + 1) ≤ M`, which holds for every budget
of at least 294912 bytes — the tuner's choice satisfies
`runSizeRecords * (fanIn + 1) * 8 ≤ M`. -/
theorem auto_tune_respects_budget (fs M : Nat)
    (h : MIN_BLOCK * (8 * (choose_k M + 1)) ≤ M) :
    (auto_tune_params fs M).1 * ((auto_tune_params fs M).2 + 1) * 8 ≤ M := by
  have hpos : 0 < 8 * (choose_k M + 1) := by omega
  have h1 : MIN_BLOCK ≤ M / (8 * (choose_k M + 1)) :=
    (Nat.le_div_iff_mul_le hpos).2 h
  have h2 : (auto_tune_params fs M).1 ≤ M / (8 * (choose_k M + 1)) := by
    show max (min (M / (8 * (choose_k M + 1)))
          ((fs / 8 + choose_k M * choose_k M - 1) / (choose_k M * choose_k M)))
        MIN_BLOCK ≤ M / (8 * (choose_k M + 1))
    exact max_le (min_le_left _ _) h1
  have h3 : (auto_tune_params fs M).2 = choose_k M := rfl
  have h4 : (auto_tune_params fs M).1 * (choose_k M + 1) * 8 ≤
      M / (8 * (choose_k M + 1)) * (choose_k M + 1) * 8 :=
    Nat.mul_le_mul_right 8 (Nat.mul_le_mul_right _ h2)
  have h5 : M / (8 * (choose_k M + 1)) * (choose_k M + 1) * 8 =
      M / (8 * (choose_k M + 1)) * (8 * (choose_k M + 1)) := by ring
  have h6 : M / (8 * (choose_k M + 1)) * (8 * (choose_k M + 1)) ≤ M :=
    Nat.div_mul_le_self M _
  rw [h3]
  omega

/-- Witness for the amended C2 at the threshold budget `M = 294912`. -/
theorem auto_tune_respects_budget_witness :
    MIN_BLOCK * (8 * (choose_k 294912 + 1)) ≤ 294912
    ∧ (auto_tune_params 800 294912).1 * ((auto_tune_params 800 294912).2 + 1) * 8
        ≤ 294912 :=
  ⟨by decide, auto_tune_respects_budget 800 294912 (by decide)⟩

/-- C3 (counterexample): a 7-byte input file (no complete record, 7 trailing
bytes) is rejected, but with the `struct.unpack` error — the code defines no
`MalformedInputError` and never raises one. -/
theorem malformed_error_type_cex :
    (sort 1 2 (([] : List Int), 7)).2 = Except.error SortError.structError
    ∧ SortError.structError ≠ SortError.malformedInputError :=
  ⟨rfl, by decide⟩

/-- C3 (amended): for every input whose byte length is not a multiple of 8
(trailing byte count `t ≠ 0`) and any block size ≥ 1, run generation raises
the `struct.unpack` error and `sort` propagates it — the trailing partial
record is never silently dropped, but the error is `struct.error`, not a
`MalformedInputError`. -/
theorem malformed_rejected (bs k : Nat) (recs : List α) (t : Nat)
    (hbs : 1 ≤ bs) (ht : t ≠ 0) :
    (generate_runs bs recs t).2 = some SortError.structError
    ∧ (sort bs k (recs, t)).2 = Except.error SortError.structError := by
  have hg := generate_runs_err_aux recs.length bs recs t le_rfl hbs ht
  refine ⟨hg, ?_⟩
  simp only [sort, hg]

/-- Witness for the amended C3 at a 7-byte file. -/
theorem malformed_rejected_witness :
    1 ≤ 1 ∧ (7 : Nat) ≠ 0 ∧
      ((generate_runs 1 ([] : List Int) 7).2 = some SortError.structError
        ∧ (sort 1 2 (([] : List Int), 7)).2 =
            Except.error SortError.structError) :=
  ⟨by decide, by decide, malformed_rejected 1 2 [] 7 (by decide) (by decide)⟩

/-- C4 (counterexample): on a successful sort of `[2, 1]` over a pre-existing
file at the output path, the finalization first removes the old file and only
then moves the surviving run in, so the trace of output-path states contains
`none`: there is an intermediate state in which the output path is missing —
the replacement is not atomic. -/
theorem sort_trace_missing_window_cex :
    sortTrace 1 2 (some [(9 : Int)]) (([2, 1] : List Int), 0) =
      [none, some [1, 2]]
    ∧ Option.none ∈ sortTrace 1 2 (some [(9 : Int)]) (([2, 1] : List Int), 0) :=
  ⟨by decide, by decide⟩

/-- C4 (amended): if an error occurs during run generation, `sort` aborts and
the output path is left exactly as it was (no state change at the
destination).  On success the surviving run's content is installed at the
output path, but when a file already exists there it is first removed
(`os.remove`) and the run then moved in (`shutil.move`), so there is an
intermediate state in which the output path is missing; an empty input
truncates the destination to an empty file in one step. -/
theorem sort_trace_spec (bs k : Nat) (prior : Option (List α)) (recs : List α)
    (t : Nat) (hbs : 1 ≤ bs) (hk : 2 ≤ k) :
    (t ≠ 0 → sortTrace bs k prior (recs, t) = [])
    ∧ (recs ≠ [] → sortTrace bs k prior (recs, 0) =
        match prior with
        | some _ => [none, some (sortOutput bs k recs)]
        | none => [some (sortOutput bs k recs)])
    ∧ sortTrace bs k prior ([], 0) = [some []] := by
  refine ⟨?_, ?_, ?_⟩
  · intro ht
    have hg := generate_runs_err_aux recs.length bs recs t le_rfl hbs ht
    simp only [sortTrace, hg]
  · intro hne
    obtain ⟨h2none, hperm, hnnil, hsorted⟩ :=
      generate_runs_props recs.length bs recs le_rfl hbs
    simp only [sortTrace, h2none]
    have hlen := multi_pass_merge_length k hk (generate_runs bs recs 0).1.length
      (generate_runs bs recs 0).1 le_rfl
    cases hr : multi_pass_merge k (generate_runs bs recs 0).1 with
    | nil =>
      exfalso
      rw [hr] at hlen
      have hne2 := hnnil hne
      have hz : (generate_runs bs recs 0).1.length ≠ 0 := by
        simpa [List.length_eq_zero] using hne2
      rw [if_neg hz] at hlen
      simp at hlen
    | cons r rest =>
      have hso : sortOutput bs k recs = r := by
        unfold sortOutput
        rw [hr]
      rw [hso]
      cases prior <;> rfl
  · have hg : generate_runs bs ([] : List α) 0 = ([], none) := by
      rw [generate_runs_eq]
      rw [if_neg (by omega : ¬ bs = 0),
        if_neg (by simp; omega : ¬ bs ≤ ([] : List α).length)]
      simp
    simp only [sortTrace, hg]
    rfl

/-- Witness for the amended C4: a malformed file leaves the destination
untouched; a sort of `[2, 1]` over a prior file passes through the
remove-then-move states; the empty input writes an empty file. -/
theorem sort_trace_spec_witness :
    1 ≤ 1 ∧ 2 ≤ 2 ∧
      (((7 : Nat) ≠ 0 → sortTrace 1 2 (some [(9 : Int)]) ([2, 1], 7) = [])
        ∧ (([2, 1] : List Int) ≠ [] →
            sortTrace 1 2 (some [(9 : Int)]) ([2, 1], 0) =
              [none, some (sortOutput 1 2 [2, 1])])
        ∧ sortTrace 1 2 (some [(9 : Int)]) ([], 0) = [some []]) :=
  ⟨by decide, by decide,
    sort_trace_spec 1 2 (some [9]) [2, 1] 7 (by decide) (by decide)⟩

/-- C5: at every iteration `n` of the merge loop, the heap holds — as a
multiset — exactly one entry per input source that still has not-yet-emitted
records, namely that source's head (its smallest not-yet-emitted record, the
sources being sorted); each source's pending records are a suffix of its run;
the emitted output plus the pending records account for every input record;
and consequently the merged output is a non-decreasing sequence containing
every input record exactly once (a sorted permutation of the concatenation of
the runs). -/
theorem merge_heap_invariant (runs : List (List α))
    (hs : ∀ r ∈ runs, List.Sorted (· ≤ ·) r) :
    (∀ n : Nat, ∃ pend : List (List α),
        (mergeStep^[n] (initState runs)).files = pend.map List.tail
        ∧ ((mergeStep^[n] (initState runs)).heap).Perm (heads pend)
        ∧ pend.length = runs.length
        ∧ (∀ i : Nat, (pend.getD i []).IsSuffix (runs.getD i []))
        ∧ ((mergeStep^[n] (initState runs)).out ++ pend.flatten).Perm runs.flatten
        ∧ (mergeStep^[n] (initState runs)).out ++ merge_k_runs pend =
            merge_k_runs runs
        ∧ (∀ p ∈ (mergeStep^[n] (initState runs)).heap,
            ∀ w ∈ pend.getD p.2 [], p.1 ≤ w))
    ∧ List.Sorted (· ≤ ·) (merge_k_runs runs)
    ∧ (merge_k_runs runs).Perm runs.flatten := by
  refine ⟨?_, merge_k_runs_sorted hs, merge_k_runs_perm runs⟩
  intro n
  obtain ⟨pend, h1, h2, h3, h4, h5, h6⟩ := mergeStep_invariant runs n
  refine ⟨pend, h1, h2, h3, h4, h5, h6, ?_⟩
  intro p hp
  have hp' : (p.1, p.2) ∈ heads pend := by
    rw [Prod.mk.eta]
    exact h2.subset hp
  obtain ⟨i', rest, hi, hget⟩ := headsFrom_mem pend 0 p.1 p.2 hp'
  have hget2 : pend.getD p.2 [] = p.1 :: rest := by
    have hii : p.2 = i' := by omega
    rw [hii]; exact hget
  have hsorted2 : List.Sorted (· ≤ ·) (pend.getD p.2 []) :=
    List.Pairwise.sublist ((h4 p.2).sublist) (getD_sorted hs p.2)
  intro w hw
  rw [hget2] at hw hsorted2
  rcases List.mem_cons.1 hw with rfl | hw
  · exact le_refl _
  · exact List.rel_of_sorted_cons hsorted2 w hw

/-- Witness for C5 at the sorted runs `[[1, 3], [2]]`. -/
theorem merge_heap_invariant_witness :
    (∀ r ∈ ([[1, 3], [2]] : List (List Int)), List.Sorted (· ≤ ·) r)
    ∧ (List.Sorted (· ≤ ·) (merge_k_runs ([[1, 3], [2]] : List (List Int)))
        ∧ (merge_k_runs ([[1, 3], [2]] : List (List Int))).Perm
            ([[1, 3], [2]] : List (List Int)).flatten) :=
  ⟨by decide, (merge_heap_invariant [[1, 3], [2]] (by decide)).2⟩

/-- C6: for every list of initial runs and every fan-in `k ≥ 2`, the
multi-pass merge performs zero passes when at most one run exists and exactly
`⌈log_k R⌉` passes (Mathlib's ceiling logarithm `Nat.clog k R`) when `R > 1`
runs exist; afterwards exactly one run remains, or zero when there were no
runs at all. -/
theorem pass_count_formula (k : Nat) (runs : List (List α)) (hk : 2 ≤ k) :
    (runs.length ≤ 1 → pass_count k runs = 0)
    ∧ (1 < runs.length → pass_count k runs = Nat.clog k runs.length)
    ∧ (multi_pass_merge k runs).length = (if runs.length = 0 then 0 else 1) := by
  refine ⟨?_, ?_, multi_pass_merge_length k hk runs.length runs le_rfl⟩
  · intro h1
    rw [pass_count_eq k hk, if_pos h1]
  · intro h1
    exact pass_count_clog_aux k hk runs.length runs le_rfl (by omega)

/-- Witness for C6 at three runs and fan-in 2 (two passes). -/
theorem pass_count_formula_witness :
    2 ≤ 2 ∧
      ((([[1], [2], [3]] : List (List Int)).length ≤ 1 →
          pass_count 2 ([[1], [2], [3]] : List (List Int)) = 0)
        ∧ (1 < ([[1], [2], [3]] : List (List Int)).length →
            pass_count 2 ([[1], [2], [3]] : List (List Int)) =
              Nat.clog 2 ([[1], [2], [3]] : List (List Int)).length)
        ∧ (multi_pass_merge 2 ([[1], [2], [3]] : List (List Int))).length =
            (if ([[1], [2], [3]] : List (List Int)).length = 0 then 0 else 1)) :=
  ⟨by decide, pass_count_formula 2 [[1], [2], [3]] (by decide)⟩

/-- C7: for a fixed input, any two valid choices of block size and fan-in
produce identical output record sequences (hence byte-identical output
files); the tuning parameters never change the final sorted content. -/
theorem params_independence (bs₁ k₁ bs₂ k₂ : Nat) (recs : List α)
    (h1 : 1 ≤ bs₁) (h2 : 2 ≤ k₁) (h3 : 1 ≤ bs₂) (h4 : 2 ≤ k₂) :
    sortOutput bs₁ k₁ recs = sortOutput bs₂ k₂ recs := by
  obtain ⟨p1, s1⟩ := sortOutput_perm bs₁ k₁ recs h1 h2
  obtain ⟨p2, s2⟩ := sortOutput_perm bs₂ k₂ recs h3 h4
  exact List.eq_of_perm_of_sorted (p1.trans p2.symm) s1 s2

/-- Witness for C7: `(bs, k) = (2, 2)` versus `(3, 3)` on `[5, 3, 1, 4, 2]`. -/
theorem params_independence_witness :
    1 ≤ 2 ∧ 2 ≤ 2 ∧ 1 ≤ 3 ∧ 2 ≤ 3 ∧
      sortOutput 2 2 ([5, 3, 1, 4, 2] : List Int) =
        sortOutput 3 3 ([5, 3, 1, 4, 2] : List Int) :=
  ⟨by decide, by decide, by decide, by decide,
    params_independence 2 2 3 3 [5, 3, 1, 4, 2]
      (by decide) (by decide) (by decide) (by decide)⟩

/-- C8 (counterexample): after a successful `sort` of two records the work
directory is gone, but the engine object still holds the run file list
(`self.runs` is non-empty): engine state referring to the removed run files
is retained. -/
theorem runs_retained_cex :
    (sort 1 2 (([3, 1] : List Int), 0)).1.runs ≠ []
    ∧ (sort 1 2 (([3, 1] : List Int), 0)).1.workDirExists = false :=
  ⟨by decide, by decide⟩

/-- C8 (amended): on every exit path of `sort` — success or error — the
`finally:` clause removes the work directory (and with it every run file),
but the engine keeps its `runs` attribute: the list of initial-run file
names recorded by `generate_runs` is still referenced afterwards. -/
theorem work_dir_cleanup_runs_retained (bs k : Nat) (file : List α × Nat) :
    (sort bs k file).1.workDirExists = false
    ∧ (sort bs k file).1.runs =
        List.range (generate_runs bs file.1 file.2).1.length := by
  simp only [sort]
  cases hg : (generate_runs bs file.1 file.2).2 <;> exact ⟨rfl, rfl⟩

/-- C9 (counterexample): a merge of `[[1], [2]]` whose first output write
raises `IOError` terminates with the error and with the input handles NOT
closed — the `for f in files: f.close()` loop sits after the `with` block,
not in a `finally`, so the error path skips it. -/
theorem merge_handles_leak_cex :
    (merge_k_runsH (some 0) [[(1 : Int)], [2]]).1 =
        Except.error SortError.ioError
    ∧ (merge_k_runsH (some 0) [[(1 : Int)], [2]]).2 = false :=
  ⟨rfl, rfl⟩

/-- C9 (amended): `merge_k_runs` closes all input handles exactly when the
merge loop completes without raising: a failure-free run returns the merged
output with all handles closed, while any write failure during the loop
(`failAt` strictly below the total record count) aborts with the handles
left open. -/
theorem merge_handles_closed (srcs : List (List α)) (j : Nat) :
    merge_k_runsH none srcs = (Except.ok (merge_k_runs srcs), true)
    ∧ (j < totalLen srcs →
        merge_k_runsH (some j) srcs = (Except.error SortError.ioError, false))
    ∧ (totalLen srcs ≤ j →
        merge_k_runsH (some j) srcs = (Except.ok (merge_k_runs srcs), true)) := by
  refine ⟨?_, ?_, ?_⟩
  · unfold merge_k_runsH
    rw [merge_loopH_none (totalLen srcs) 0 srcs]
    rfl
  · intro hj
    unfold merge_k_runsH
    rw [merge_loopH_err (totalLen srcs) 0 j srcs le_rfl (by omega) (by omega)]
  · intro hj
    unfold merge_k_runsH
    rw [merge_loopH_ok (totalLen srcs) 0 j srcs le_rfl (by omega)]
    rfl

/-- Witness for the amended C9 at the runs `[[1], [2]]` with a failure
injected at the first write. -/
theorem merge_handles_closed_witness :
    merge_k_runsH none [[(1 : Int)], [2]] =
        (Except.ok (merge_k_runs [[(1 : Int)], [2]]), true)
    ∧ merge_k_runsH (some 0) [[(1 : Int)], [2]] =
        (Except.error SortError.ioError, false) :=
  ⟨(merge_handles_closed [[(1 : Int)], [2]] 0).1,
    (merge_handles_closed [[(1 : Int)], [2]] 0).2.1 (by decide)⟩

/-- C10: calling `sort` with `block_size = 0` on a non-empty well-formed
input raises no error: `f.read(0)` returns the falsy empty chunk at once, so
run generation produces zero runs, `multi_pass_merge` returns no surviving
run, and `sort` writes an empty file at the output path, silently discarding
every input record. -/
theorem block_size_zero_silent (k : Nat) (recs : List α) (hne : recs ≠ []) :
    generate_runs 0 recs 0 = ([], none)
    ∧ (sort 0 k (recs, 0)).2 = Except.ok []
    ∧ (∀ prior : Option (List α), sortTrace 0 k prior (recs, 0) = [some []]) := by
  have hg : generate_runs 0 recs 0 = ([], none) := by
    unfold generate_runs
    simp [generate_runsF]
  refine ⟨hg, ?_, ?_⟩
  · simp only [sort, hg]
    rfl
  · intro prior
    simp only [sortTrace, hg]
    rfl

/-- Witness for C10 at the two-record input `[1, 2]`. -/
theorem block_size_zero_silent_witness :
    (([1, 2] : List Int) ≠ []) ∧
      (generate_runs 0 ([1, 2] : List Int) 0 = ([], none)
        ∧ (sort 0 2 (([1, 2] : List Int), 0)).2 = Except.ok []
        ∧ (∀ prior : Option (List Int), sortTrace 0 2 prior ([1, 2], 0) = [some []])) :=
  ⟨by decide, block_size_zero_silent 2 [1, 2] (by decide)⟩

end EMS
